import Mathlib

/-!
# Verification of the Orbital Propagation Kernel (`orbital_kernel.py`)

A shallow embedding of the core data model and algorithms of
`packages/neurosphere-python/orbital_kernel.py` (with
`packages/neurosphere-python/visual_primitives.py` for the resonance engine),
together with theorems settling the frozen claims about the repository.

Modelling conventions:
* Python floats are idealised as real numbers `ℝ`; the `eps` clamps of
  `torch.nn.functional.normalize` (1e-12) and `torch.nn.functional.cosine_similarity`
  (1e-8) are modelled explicitly.
* A Python `dict` keyed by node id is modelled as a `List Node` in insertion
  order; assignment to an existing key replaces the bound value in place
  (see `SemanticGraph.add_node`).
* Fallible code (the bare `next(...)` lookups that raise `StopIteration`,
  out-of-range tensor indexing, and `torch.cross` on a dimension other
  than 3) is modelled with `Except KernelError`.
* Mutation of shared Python objects (needed for the write-back claim about
  `merge_for_propagation`) is modelled separately in the `Shared` namespace
  with an explicit store from node addresses to node data.
-/

noncomputable section

namespace Orbital

/-- `Node` dataclass of `orbital_kernel.py`: a node on the spherical manifold.
`metadata` is modelled as an association list of string keys and values
(the kernel only reads string-valued provenance flags such as `is_input`). -/
structure Node where
  id : String
  type : String
  value : String
  position : List ℝ
  activation : ℝ
  ring : String
  metadata : List (String × String)

/-- `Edge` dataclass: a connection between nodes. -/
structure Edge where
  source_id : String
  target_id : String
  weight : ℝ
  edge_type : String

/-- `SemanticGraph`: a dict from node id to `Node` (modelled as an
insertion-ordered list, see `add_node`) and an ordered list of edges. -/
structure SemanticGraph where
  dim : ℕ
  nodes : List Node
  edges : List Edge

/-- `SemanticGraph.add_node`: Python executes `self.nodes[node.id] = node`.
On a dict this replaces the value bound to an existing key in place
(keeping its position in insertion order) and otherwise appends a new
binding at the end. (On a list carrying a duplicated id — a state no dict
can represent — the `map` replaces every occurrence; graphs built through
`add_node` never duplicate ids.) -/
def SemanticGraph.add_node (g : SemanticGraph) (n : Node) : SemanticGraph :=
  { g with
    nodes :=
      if g.nodes.any (fun m => m.id == n.id) then
        g.nodes.map (fun m => if m.id = n.id then n else m)
      else
        g.nodes ++ [n] }

/-- `SemanticGraph.add_edge`: appends an edge; endpoint existence is not
validated. -/
def SemanticGraph.add_edge (g : SemanticGraph) (source_id target_id : String)
    (weight : ℝ) (edge_type : String) : SemanticGraph :=
  { g with edges := g.edges ++ [⟨source_id, target_id, weight, edge_type⟩] }

/-- `self.nodes.get(node_id)`: dict lookup, `none` when the id is absent.
On a list built by `add_node` ids are unique, so "first match" is the match. -/
def SemanticGraph.lookup (g : SemanticGraph) (node_id : String) : Option Node :=
  g.nodes.find? (fun n => n.id == node_id)

/-- `SemanticGraph.get_neighbors`: for each edge, if its `source_id` is the
queried id the target is looked up, `elif` its `target_id` is the queried id
the source is looked up; a missing other endpoint contributes nothing. -/
def SemanticGraph.get_neighbors (g : SemanticGraph) (node_id : String) :
    List (Node × ℝ) :=
  g.edges.filterMap (fun e =>
    if e.source_id = node_id then
      (g.lookup e.target_id).map (fun n => (n, e.weight))
    else if e.target_id = node_id then
      (g.lookup e.source_id).map (fun n => (n, e.weight))
    else none)

/-- Formalisation of claim C10's description of `get_neighbors`: one pair per
edge incident to `node_id` (in either direction) whose *other* endpoint is
present in the node map, the other endpoint being the target when the source
matches and the source otherwise; all other edges are silently omitted. -/
def getNeighborsSpec (g : SemanticGraph) (node_id : String) :
    List (Node × ℝ) :=
  g.edges.filterMap (fun e =>
    if e.source_id = node_id ∨ e.target_id = node_id then
      (g.lookup (if e.source_id = node_id then e.target_id else e.source_id)).map
        (fun n => (n, e.weight))
    else none)

/-- **C10.** `get_neighbors` is total (it is a Lean function, never an error)
and returns exactly one `(node, weight)` pair for each edge touching
`node_id` whose other endpoint exists in the node map, omitting edges whose
other endpoint is absent. -/
theorem get_neighbors_eq_spec (g : SemanticGraph) (node_id : String) :
    g.get_neighbors node_id = getNeighborsSpec g node_id := by
  unfold SemanticGraph.get_neighbors getNeighborsSpec
  refine List.filterMap_congr (fun e _ => ?_)
  by_cases hs : e.source_id = node_id
  · simp [hs]
  · by_cases ht : e.target_id = node_id <;> simp [hs, ht]

/-- Replacing the node bound to `n.id` leaves `find?` for that id returning
the replacement, provided some list element carries the id. -/
theorem find_replace_self (l : List Node) (n : Node)
    (h : l.any (fun m => m.id == n.id) = true) :
    (l.map (fun m => if m.id = n.id then n else m)).find?
      (fun m => m.id == n.id) = some n := by
  induction l with
  | nil => simp at h
  | cons a l ih =>
    by_cases ha : a.id = n.id
    · simp [ha]
    · have hl : l.any (fun m => m.id == n.id) = true := by
        simp only [List.any_cons, Bool.or_eq_true] at h
        rcases h with h | h
        · exact absurd (by simpa using h) ha
        · exact h
      simpa [ha] using ih hl

/-- Replacing the node bound to `n.id` does not change `find?` for any other
id. -/
theorem find_replace_other (l : List Node) (n : Node) (m : String)
    (hm : m ≠ n.id) :
    (l.map (fun x => if x.id = n.id then n else x)).find?
      (fun x => x.id == m) = l.find? (fun x => x.id == m) := by
  induction l with
  | nil => simp
  | cons a l ih =>
    by_cases ha : a.id = n.id
    · have hn : (n.id == m) = false := by
        simp [Ne.symm hm]
      have ham : (a.id == m) = false := by
        simp [ha, Ne.symm hm]
      simp [ha, hn, ham, ih]
    · by_cases ham : a.id = m
      · rw [List.map_cons, if_neg ha]
        have hb : (a.id == m) = true := by simp [ham]
        simp [List.find?_cons, hb]
      · have h1 : (a.id == m) = false := by simp [ham]
        rw [List.map_cons, if_neg ha]
        simp [List.find?_cons, h1, ih]

/-- Concrete node bound to id `a` before the colliding insert. -/
def nodeA1 : Node := ⟨"a", "concept", "v1", [], 0, "middle", []⟩

/-- Concrete node with the same id `a` but a different value. -/
def nodeA2 : Node := ⟨"a", "concept", "v2", [], 0, "middle", []⟩

/-- Concrete one-node graph containing `nodeA1`. -/
def gC6 : SemanticGraph := ⟨512, [nodeA1], []⟩

/-- **C6, counterexample.** Inserting a node whose id is already present does
not fail and does not leave the previously bound node unchanged:
`add_node` silently rebinds the id to the new node. -/
theorem add_node_collision_cex :
    (gC6.add_node nodeA2).lookup "a" = some nodeA2 ∧ nodeA2 ≠ nodeA1 := by
  constructor
  · rfl
  · intro h
    have : nodeA2.value = nodeA1.value := by rw [h]
    simp [nodeA1, nodeA2] at this

/-- **C6, amended.** `add_node` never fails: it binds `n.id` to the new node
`n` — silently replacing any node previously bound to that id, in place —
and leaves the binding of every other id unchanged. -/
theorem add_node_replaces (g : SemanticGraph) (n : Node) :
    (g.add_node n).lookup n.id = some n ∧
      ∀ m, m ≠ n.id → (g.add_node n).lookup m = g.lookup m := by
  constructor
  · unfold SemanticGraph.add_node SemanticGraph.lookup
    by_cases h : g.nodes.any (fun m => m.id == n.id)
    · simpa [h] using find_replace_self g.nodes n h
    · simp only [h, Bool.false_eq_true, if_false]
      rw [List.find?_append]
      have hnone : g.nodes.find? (fun m => m.id == n.id) = none := by
        rw [List.find?_eq_none]
        intro x hx
        by_contra hbeq
        have : g.nodes.any (fun m => m.id == n.id) = true :=
          List.any_of_mem hx (by simpa using hbeq)
        exact absurd this (by simpa using h)
      simp [hnone]
  · intro m hm
    unfold SemanticGraph.add_node SemanticGraph.lookup
    by_cases h : g.nodes.any (fun m => m.id == n.id)
    · simpa [h] using find_replace_other g.nodes n m hm
    · simp only [h, Bool.false_eq_true, if_false]
      rw [List.find?_append]
      have : (n.id == m) = false := by simp [Ne.symm hm]
      cases hfind : g.nodes.find? (fun x => x.id == m) <;> simp [this, hfind]

/-- `any(... for e in graph.edges)` check inside
`_compute_clustering_coefficient`: are `a` and `b` connected by any edge
(in either orientation)? -/
def connectedByAnyEdge (g : SemanticGraph) (a b : String) : Bool :=
  g.edges.any (fun e =>
    (e.source_id == a && e.target_id == b) ||
      (e.source_id == b && e.target_id == a))

/-- `for i, n1 in enumerate(neighbors): for n2 in neighbors[i+1:]`:
the ordered pairs of a list, each unordered pair taken once (with
multiplicity if the list repeats an element). -/
def orderedPairs : List α → List (α × α)
  | [] => []
  | x :: xs => xs.map (fun y => (x, y)) ++ orderedPairs xs

/-- One node's contribution to `total_clustering` in
`_compute_clustering_coefficient`: 0 when the node has fewer than two
neighbors (the `continue`), otherwise `triangles / max_triangles` where
`max_triangles = k*(k-1)/2` (the redundant `if max_triangles > 0` guard of
the source is kept). -/
def localClusteringTerm (g : SemanticGraph) (node : Node) : ℝ :=
  let neighbors := (g.get_neighbors node.id).map Prod.fst
  let k := neighbors.length
  if k < 2 then 0
  else
    let triangles :=
      (orderedPairs neighbors).countP (fun p => connectedByAnyEdge g p.1.id p.2.id)
    let maxTriangles : ℝ := (k : ℝ) * ((k : ℝ) - 1) / 2
    if 0 < maxTriangles then (triangles : ℝ) / maxTriangles else 0

/-- `_compute_clustering_coefficient`: 0 for graphs with fewer than 3 nodes,
otherwise the accumulated per-node clustering divided by the **total** number
of nodes (`total_clustering / len(graph.nodes)`). -/
def compute_clustering_coefficient (g : SemanticGraph) : ℝ :=
  if g.nodes.length < 3 then 0
  else (g.nodes.map (localClusteringTerm g)).sum / (g.nodes.length : ℝ)

/-- A node's neighbour-pair fraction as claim C4 words it: the fraction of
the node's neighbor pairs that are themselves connected by any edge. -/
def neighborPairFraction (g : SemanticGraph) (node : Node) : ℝ :=
  let neighbors := (g.get_neighbors node.id).map Prod.fst
  let pairs := orderedPairs neighbors
  ((pairs.countP (fun p => connectedByAnyEdge g p.1.id p.2.id) : ℝ)) /
    (pairs.length : ℝ)

/-- Claim C4's description of the clustering coefficient: the average, over
the nodes that have at least 2 neighbors, of `neighborPairFraction`; 0 for
graphs with fewer than 3 nodes. -/
def clusteringClaimC4 (g : SemanticGraph) : ℝ :=
  if g.nodes.length < 3 then 0
  else
    let qual := g.nodes.filter (fun n => 2 ≤ (g.get_neighbors n.id).length)
    (qual.map (neighborPairFraction g)).sum / (qual.length : ℝ)

/-- The amended description: the **sum**, over nodes with at least 2
neighbors, of the neighbour-pair fraction, divided by the **total** node
count; 0 for graphs with fewer than 3 nodes. -/
def clusteringAmendedC4 (g : SemanticGraph) : ℝ :=
  if g.nodes.length < 3 then 0
  else
    let qual := g.nodes.filter (fun n => 2 ≤ (g.get_neighbors n.id).length)
    (qual.map (neighborPairFraction g)).sum / (g.nodes.length : ℝ)

/-- `orderedPairs` produces `k*(k-1)/2` pairs (stated multiplied out and
subtraction-free to stay in `ℕ`). -/
theorem orderedPairs_length_mul (l : List α) :
    2 * (orderedPairs l).length + l.length = l.length * l.length := by
  induction l with
  | nil => simp [orderedPairs]
  | cons x xs ih =>
    simp only [orderedPairs, List.length_append, List.length_map,
      List.length_cons]
    zify at ih ⊢
    linear_combination ih

/-- Summing `f` over a list equals summing `h` over the filtered list when
`f` agrees with `h` on kept elements and vanishes on dropped ones. -/
theorem sum_map_eq_sum_filter_map (l : List α) (p : α → Bool) (f h : α → ℝ)
    (hf : ∀ x ∈ l, (p x = true → f x = h x) ∧ (p x = false → f x = 0)) :
    (l.map f).sum = ((l.filter p).map h).sum := by
  induction l with
  | nil => simp
  | cons a l ih =>
    have ha := hf a (List.mem_cons_self a l)
    have hl := fun x hx => hf x (List.mem_cons_of_mem a hx)
    cases hp : p a with
    | true => simp [List.filter_cons, hp, ha.1 hp, ih hl]
    | false => simp [List.filter_cons, hp, ha.2 hp, ih hl]

/-- For a node with at least two neighbours, the source's per-node term is
exactly the claim's neighbour-pair fraction. -/
theorem localClusteringTerm_eq_fraction (g : SemanticGraph) (node : Node)
    (hk : 2 ≤ ((g.get_neighbors node.id).map Prod.fst).length) :
    localClusteringTerm g node = neighborPairFraction g node := by
  set ns := (g.get_neighbors node.id).map Prod.fst with hns
  have hkn : ¬ ns.length < 2 := by omega
  have hlen : ((orderedPairs ns).length : ℝ) =
      (ns.length : ℝ) * ((ns.length : ℝ) - 1) / 2 := by
    have h2 := orderedPairs_length_mul ns
    have hcast : (2 : ℝ) * ((orderedPairs ns).length : ℝ) + (ns.length : ℝ) =
        (ns.length : ℝ) * (ns.length : ℝ) := by exact_mod_cast h2
    have hexp : (ns.length : ℝ) * ((ns.length : ℝ) - 1) =
        (ns.length : ℝ) * (ns.length : ℝ) - (ns.length : ℝ) := by ring
    linarith
  have hpos : (0 : ℝ) < (ns.length : ℝ) * ((ns.length : ℝ) - 1) / 2 := by
    have : (2 : ℝ) ≤ (ns.length : ℝ) := by exact_mod_cast hk
    nlinarith
  simp only [localClusteringTerm, neighborPairFraction, ← hns, hkn,
    if_false, if_pos hpos, hlen]

/-- For a node with fewer than two neighbours the per-node term is zero. -/
theorem localClusteringTerm_eq_zero (g : SemanticGraph) (node : Node)
    (hk : ((g.get_neighbors node.id).map Prod.fst).length < 2) :
    localClusteringTerm g node = 0 := by
  simp only [localClusteringTerm, hk, if_true]

/-- **C4, amended.** The kernel's `clustering_coefficient` equals the sum,
over nodes with at least 2 neighbors, of the fraction of that node's
neighbor pairs that are themselves connected by any edge, divided by the
**total** number of nodes (not by the number of contributing nodes); for
graphs with fewer than 3 nodes it is 0. -/
theorem clustering_coefficient_amended (g : SemanticGraph) :
    compute_clustering_coefficient g = clusteringAmendedC4 g := by
  unfold compute_clustering_coefficient clusteringAmendedC4
  by_cases h3 : g.nodes.length < 3
  · simp [h3]
  · simp only [h3, if_false]
    congr 1
    refine sum_map_eq_sum_filter_map g.nodes _ _ _ (fun x _ => ?_)
    constructor
    · intro hp
      have hk : 2 ≤ ((g.get_neighbors x.id).map Prod.fst).length := by
        simpa using of_decide_eq_true hp
      exact localClusteringTerm_eq_fraction g x hk
    · intro hp
      have hk : ((g.get_neighbors x.id).map Prod.fst).length < 2 := by
        have := of_decide_eq_false hp
        simpa using Nat.lt_of_not_le (by simpa using this)
      exact localClusteringTerm_eq_zero g x hk

/-- A concept node with the given id (used to build concrete graphs). -/
def mkN (s : String) : Node := ⟨s, "concept", s, [], 0, "middle", []⟩

/-- Concrete graph for the clustering counterexample: a triangle `a,b,c` of
structural edges plus an isolated node `d`. -/
def gC4 : SemanticGraph :=
  ⟨512, [mkN "a", mkN "b", mkN "c", mkN "d"],
    [⟨"a", "b", 1, "structural"⟩, ⟨"b", "c", 1, "structural"⟩,
      ⟨"a", "c", 1, "structural"⟩]⟩

/-- Evaluation helper: a node with exactly two neighbours of which `t` pairs
are connected contributes `t`. -/
theorem localClusteringTerm_eval2 (g : SemanticGraph) (node : Node)
    (ns : List Node) (t : ℕ)
    (hn : (g.get_neighbors node.id).map Prod.fst = ns) (hk : ns.length = 2)
    (ht : (orderedPairs ns).countP
      (fun p => connectedByAnyEdge g p.1.id p.2.id) = t) :
    localClusteringTerm g node = t := by
  simp only [localClusteringTerm, hn, hk, ht]
  norm_num

/-- Evaluation helper for the claim's fraction at a node with exactly two
neighbours. -/
theorem neighborPairFraction_eval2 (g : SemanticGraph) (node : Node)
    (ns : List Node) (t : ℕ)
    (hn : (g.get_neighbors node.id).map Prod.fst = ns) (hk : ns.length = 2)
    (ht : (orderedPairs ns).countP
      (fun p => connectedByAnyEdge g p.1.id p.2.id) = t) :
    neighborPairFraction g node = t := by
  have hp1 : (orderedPairs ns).length = 1 := by
    have h := orderedPairs_length_mul ns
    rw [hk] at h
    omega
  simp only [neighborPairFraction, hn, ht, hp1]
  norm_num

/-- **C4, counterexample.** On the triangle-plus-isolated-node graph the
code returns `3/4` (it divides by the total node count 4) while the claim's
average over the three nodes with ≥ 2 neighbours is `1`. -/
theorem clustering_coefficient_cex :
    compute_clustering_coefficient gC4 = 3 / 4 ∧
      clusteringClaimC4 gC4 = 1 ∧ ((3 : ℝ) / 4) ≠ 1 := by
  have ha : localClusteringTerm gC4 (mkN "a") = (1 : ℕ) :=
    localClusteringTerm_eval2 _ _ [mkN "b", mkN "c"] 1 rfl rfl rfl
  have hb : localClusteringTerm gC4 (mkN "b") = (1 : ℕ) :=
    localClusteringTerm_eval2 _ _ [mkN "a", mkN "c"] 1 rfl rfl rfl
  have hc : localClusteringTerm gC4 (mkN "c") = (1 : ℕ) :=
    localClusteringTerm_eval2 _ _ [mkN "b", mkN "a"] 1 rfl rfl rfl
  have hd : localClusteringTerm gC4 (mkN "d") = 0 := by
    refine localClusteringTerm_eq_zero gC4 (mkN "d") ?_
    rw [show (gC4.get_neighbors (mkN "d").id).map Prod.fst = [] from rfl]
    norm_num
  refine ⟨?_, ?_, by norm_num⟩
  · have hnodes : gC4.nodes = [mkN "a", mkN "b", mkN "c", mkN "d"] := rfl
    rw [compute_clustering_coefficient, hnodes]
    rw [List.map_cons, List.map_cons, List.map_cons, List.map_cons,
      List.map_nil, ha, hb, hc, hd]
    norm_num
  · have hfa : neighborPairFraction gC4 (mkN "a") = (1 : ℕ) :=
      neighborPairFraction_eval2 _ _ [mkN "b", mkN "c"] 1 rfl rfl rfl
    have hfb : neighborPairFraction gC4 (mkN "b") = (1 : ℕ) :=
      neighborPairFraction_eval2 _ _ [mkN "a", mkN "c"] 1 rfl rfl rfl
    have hfc : neighborPairFraction gC4 (mkN "c") = (1 : ℕ) :=
      neighborPairFraction_eval2 _ _ [mkN "b", mkN "a"] 1 rfl rfl rfl
    have hqual : gC4.nodes.filter
        (fun n => 2 ≤ (gC4.get_neighbors n.id).length) =
        [mkN "a", mkN "b", mkN "c"] := rfl
    rw [clusteringClaimC4]
    rw [if_neg (by rw [show gC4.nodes.length = 4 from rfl]; norm_num)]
    simp only [hqual]
    rw [List.map_cons, List.map_cons, List.map_cons, List.map_nil,
      hfa, hfb, hfc]
    norm_num

/-- `MultimodalGraph` (Q3 ruling): two subgraphs plus resonance bridges.
This value-level model is used for the claims about the bridge-weight
operations; object sharing with merged graphs is modelled separately in the
`Shared` namespace. -/
structure MultimodalGraph where
  dim : ℕ
  concept_subgraph : SemanticGraph
  visual_subgraph : SemanticGraph
  resonance_bridges : List Edge

/-- `amplify_visual_cortex`: `bridge.weight *= factor` for every resonance
bridge. -/
def MultimodalGraph.amplify_visual_cortex (m : MultimodalGraph)
    (factor : ℝ) : MultimodalGraph :=
  { m with
    resonance_bridges := m.resonance_bridges.map
      (fun b => { b with weight := b.weight * factor }) }

/-- `mute_visual_cortex`: `bridge.weight = 0.0` for every resonance
bridge. -/
def MultimodalGraph.mute_visual_cortex (m : MultimodalGraph) :
    MultimodalGraph :=
  { m with
    resonance_bridges := m.resonance_bridges.map
      (fun b => { b with weight := 0 }) }

/-- Concrete multimodal graph for the amplification counterexample, carrying
one resonance bridge of weight `0.85` (the `RESONANCE_RINGS` value for
`(concept:moody, visual:lighting)`). -/
def mmC8 : MultimodalGraph :=
  ⟨512, ⟨512, [], []⟩, ⟨512, [], []⟩,
    [⟨"concept:moody", "visual:lighting", 0.85, "resonance"⟩]⟩

/-- **C8, counterexample.** `amplify_visual_cortex(2.0)` is not idempotent:
applied twice to a bridge of weight `0.85` it yields weight `3.4`, while a
single application yields `1.7`. -/
theorem amplify_visual_cortex_not_idempotent_cex :
    ((mmC8.amplify_visual_cortex 2).amplify_visual_cortex 2).resonance_bridges.map
        Edge.weight ≠
      (mmC8.amplify_visual_cortex 2).resonance_bridges.map Edge.weight := by
  simp only [mmC8, MultimodalGraph.amplify_visual_cortex, List.map_cons,
    List.map_nil]
  intro h
  have h1 := List.head_eq_of_cons_eq h
  norm_num at h1

/-- **C8, amended.** `mute_visual_cortex` is idempotent, but
`amplify_visual_cortex(factor)` applied twice multiplies each resonance
weight by `factor^2` rather than `factor`; both operations change only
resonance-bridge weights (subgraphs and bridge endpoints/types are
untouched). -/
theorem amplify_mute_amended (m : MultimodalGraph) (factor : ℝ) :
    m.mute_visual_cortex.mute_visual_cortex = m.mute_visual_cortex ∧
      ((m.amplify_visual_cortex factor).amplify_visual_cortex
          factor).resonance_bridges =
        m.resonance_bridges.map
          (fun b => { b with weight := b.weight * factor ^ 2 }) ∧
      (m.amplify_visual_cortex factor).concept_subgraph =
        m.concept_subgraph ∧
      (m.amplify_visual_cortex factor).visual_subgraph = m.visual_subgraph ∧
      (m.amplify_visual_cortex factor).resonance_bridges.map
          (fun b => (b.source_id, b.target_id, b.edge_type)) =
        m.resonance_bridges.map
          (fun b => (b.source_id, b.target_id, b.edge_type)) ∧
      m.mute_visual_cortex.concept_subgraph = m.concept_subgraph ∧
      m.mute_visual_cortex.visual_subgraph = m.visual_subgraph := by
  refine ⟨?_, ?_, rfl, rfl, ?_, rfl, rfl⟩
  · simp [MultimodalGraph.mute_visual_cortex, List.map_map, Function.comp]
  · simp only [MultimodalGraph.amplify_visual_cortex, List.map_map,
      Function.comp]
    refine List.map_congr_left (fun b _ => ?_)
    simp [mul_assoc, sq]
  · simp [MultimodalGraph.amplify_visual_cortex, List.map_map,
      Function.comp]

namespace Shared

/-!
Object-identity model for `merge_for_propagation`. Python graphs hold
*references* to shared `Node` objects; `merge_for_propagation` copies the
references, not the objects. We model the mutable state of each node object
(its `position` and `activation`, the fields written by
`update_node_positions` and the kernel's activation decay) in a store
indexed by object address, and graphs as id-to-address dictionaries.
-/

/-- Mutable data of one Python `Node` object. -/
structure NodeData where
  position : List ℝ
  activation : ℝ

/-- A heap mapping node-object addresses to their mutable data. -/
def Store : Type := ℕ → NodeData

/-- A `SemanticGraph` as it exists at runtime: a dict from node id to a
*reference* (address) of a node object, plus the edge list. -/
structure GraphR where
  nodes : List (String × ℕ)
  edges : List Edge

/-- A `MultimodalGraph` at runtime. -/
structure MGraphR where
  concept_subgraph : GraphR
  visual_subgraph : GraphR
  resonance_bridges : List Edge

/-- Python dict assignment `d[k] = a`: replace the binding in place when the
key exists, append otherwise. -/
def dictInsert (l : List (String × ℕ)) (k : String) (a : ℕ) :
    List (String × ℕ) :=
  if l.any (fun p => p.1 == k) then
    l.map (fun p => if p.1 = k then (k, a) else p)
  else l ++ [(k, a)]

/-- `merge_for_propagation`: a fresh `SemanticGraph` into which every
concept node then every visual node is `add_node`-ed (the same objects,
i.e. the same addresses), with the concept edges, visual edges and
resonance bridges concatenated. -/
def merge_for_propagation (m : MGraphR) : GraphR :=
  { nodes := (m.concept_subgraph.nodes ++ m.visual_subgraph.nodes).foldl
      (fun acc p => dictInsert acc p.1 p.2) [],
    edges := m.concept_subgraph.edges ++ m.visual_subgraph.edges ++
      m.resonance_bridges }

/-- One store write of `node.position = positions[i]`. -/
def writePos (σ : Store) (a : ℕ) (pos : List ℝ) : Store :=
  fun n => if n = a then { σ a with position := pos } else σ n

/-- `update_node_positions`: `node.position = positions[i]` for the i-th
node object of the dict. (Call sites always pass one row per node; the
truncating `zip` models the in-range behaviour.) -/
def update_node_positions (g : GraphR) (ps : List (List ℝ)) (σ : Store) :
    Store :=
  (g.nodes.zip ps).foldl (fun s q => writePos s q.1.2 q.2) σ

/-- Concrete store for the write-back counterexample: every node object
initially holds position `[1,0,0]`. -/
def σC7 : Store := fun _ => ⟨[1, 0, 0], 0⟩

/-- Concrete multimodal graph: one concept node object `c` at address 0,
one visual node object `v` at address 1, one resonance bridge. -/
def mmC7 : MGraphR :=
  ⟨⟨[("c", 0)], []⟩, ⟨[("v", 1)], []⟩,
    [⟨"c", "v", 0.85, "resonance"⟩]⟩

/-- **C7, counterexample.** Replacing the node positions of the graph
returned by `merge_for_propagation` mutates the node object held by
`concept_subgraph` (address 0): its stored position changes from `[1,0,0]`
to `[0,1,0]` — the merged graph is not a disposable view. -/
theorem merge_for_propagation_writes_back_cex :
    mmC7.concept_subgraph.nodes = [("c", 0)] ∧
      ((update_node_positions (merge_for_propagation mmC7)
          [[0, 1, 0], [0, 0, 1]] σC7) 0).position = [0, 1, 0] ∧
      (σC7 0).position = [1, 0, 0] ∧
      ([0, 1, 0] : List ℝ) ≠ [1, 0, 0] := by
  refine ⟨rfl, rfl, rfl, ?_⟩
  intro h
  have h1 := List.head_eq_of_cons_eq h
  norm_num at h1

/-- `add_node`-ing a run of fresh ids (no id occurring twice) appends. -/
theorem foldl_dictInsert_nodup (l acc : List (String × ℕ))
    (h : ((acc ++ l).map Prod.fst).Nodup) :
    l.foldl (fun a p => dictInsert a p.1 p.2) acc = acc ++ l := by
  induction l generalizing acc with
  | nil => simp
  | cons p l ih =>
    have hnotin : ¬ acc.any (fun q => q.1 == p.1) = true := by
      intro hany
      rcases List.any_eq_true.1 hany with ⟨q, hq, hbeq⟩
      have hq1 : q.1 = p.1 := by simpa using hbeq
      have hsplit : ((acc ++ p :: l).map Prod.fst).Nodup := h
      have : p.1 ∈ acc.map Prod.fst := List.mem_map.2 ⟨q, hq, hq1⟩
      have hdisj := List.disjoint_of_nodup_append (by simpa using hsplit)
      exact hdisj this (by simp)
    rw [List.foldl_cons]
    have hstep : dictInsert acc p.1 p.2 = acc ++ [p] := by
      rw [dictInsert, if_neg hnotin]
    rw [hstep]
    have h' : (((acc ++ [p]) ++ l).map Prod.fst).Nodup := by
      simpa using h
    simpa using ih (acc ++ [p]) h'

/-- Writes to other addresses leave an address untouched. -/
theorem foldl_writePos_not_mem (L : List ((String × ℕ) × List ℝ))
    (σ : Store) (a : ℕ) (h : a ∉ L.map (fun q => q.1.2)) :
    (L.foldl (fun s q => writePos s q.1.2 q.2) σ) a = σ a := by
  induction L generalizing σ with
  | nil => rfl
  | cons q L ih =>
    rw [List.foldl_cons]
    have hne : a ≠ q.1.2 := by
      intro he
      exact h (by simp [he])
    rw [ih _ (fun hm => h (by simp [hm]))]
    simp [writePos, hne]

/-- Position update through a reference list: the i-th node object's stored
data gets position `ps[i]`, activation untouched (addresses pairwise
distinct). -/
theorem writeList_get (ns : List (String × ℕ)) (ps : List (List ℝ))
    (σ : Store) (i : ℕ) (hi : i < ns.length) (hp : i < ps.length)
    (hnd : (ns.map Prod.snd).Nodup) :
    ((ns.zip ps).foldl (fun s q => writePos s q.1.2 q.2) σ)
        ((ns.get ⟨i, hi⟩).2) =
      { σ ((ns.get ⟨i, hi⟩).2) with position := ps.get ⟨i, hp⟩ } := by
  induction ns generalizing ps σ i with
  | nil => exact absurd hi (by simp)
  | cons n ns ih =>
    cases ps with
    | nil => exact absurd hp (by simp)
    | cons p qs =>
      rw [List.zip_cons_cons, List.foldl_cons]
      cases i with
      | zero =>
        have hnot : n.2 ∉ (ns.zip qs).map (fun q => q.1.2) := by
          intro hmem
          rcases List.mem_map.1 hmem with ⟨q, hq, hqe⟩
          have hq1 : q.1 ∈ ns := (List.of_mem_zip hq).1
          have : n.2 ∈ ns.map Prod.snd := List.mem_map.2 ⟨q.1, hq1, hqe⟩
          exact (List.nodup_cons.1 (by simpa using hnd)).1 this
        have hg0 : ((n :: ns).get ⟨0, hi⟩) = n := rfl
        rw [hg0]
        rw [foldl_writePos_not_mem _ _ _ hnot]
        simp [writePos]
      | succ j =>
        have hj : j < ns.length := by
          simpa using Nat.lt_of_succ_lt_succ hi
        have hjp : j < qs.length := by
          simpa using Nat.lt_of_succ_lt_succ hp
        have hgs : ((n :: ns).get ⟨j + 1, hi⟩) = ns.get ⟨j, hj⟩ := rfl
        have hqs : ((p :: qs).get ⟨j + 1, hp⟩) = qs.get ⟨j, hjp⟩ := rfl
        rw [hgs, hqs]
        have hnd' : (ns.map Prod.snd).Nodup :=
          (List.nodup_cons.1 (by simpa using hnd)).2
        rw [ih qs _ j hj hjp hnd']
        have ha : (ns.get ⟨j, hj⟩).2 ≠ n.2 := by
          intro he
          have hmem : (ns.get ⟨j, hj⟩).2 ∈ ns.map Prod.snd :=
            List.mem_map.2 ⟨ns.get ⟨j, hj⟩, List.get_mem ns j hj, rfl⟩
          rw [he] at hmem
          exact (List.nodup_cons.1 (by simpa using hnd)).1 hmem
        have ha' : ns[j].2 ≠ n.2 := ha
        simp [writePos, ha']

/-- **C7, amended.** The graph returned by `merge_for_propagation` shares
its node objects with the subgraphs: replacing node positions through the
merged graph writes through to the `concept_subgraph`'s node objects (the
i-th concept node's stored position becomes row i; only the edge list of the
merged view is private). Here subgraph ids are distinct (they live in one
merged dict) and node objects are distinct. -/
theorem merge_for_propagation_shares_nodes (m : MGraphR)
    (ps : List (List ℝ)) (σ : Store)
    (hid : ((m.concept_subgraph.nodes ++ m.visual_subgraph.nodes).map
      Prod.fst).Nodup)
    (haddr : ((m.concept_subgraph.nodes ++ m.visual_subgraph.nodes).map
      Prod.snd).Nodup)
    (i : ℕ) (hi : i < m.concept_subgraph.nodes.length)
    (hp : i < ps.length) :
    (update_node_positions (merge_for_propagation m) ps σ)
        ((m.concept_subgraph.nodes.get ⟨i, hi⟩).2) =
      { σ ((m.concept_subgraph.nodes.get ⟨i, hi⟩).2) with
        position := ps.get ⟨i, hp⟩ } := by
  have hmerged : (merge_for_propagation m).nodes =
      m.concept_subgraph.nodes ++ m.visual_subgraph.nodes := by
    simpa [merge_for_propagation] using
      foldl_dictInsert_nodup
        (m.concept_subgraph.nodes ++ m.visual_subgraph.nodes) [] (by simpa using hid)
  have hi' : i < (m.concept_subgraph.nodes ++ m.visual_subgraph.nodes).length := by
    simp only [List.length_append]
    omega
  have hget : ((m.concept_subgraph.nodes ++ m.visual_subgraph.nodes).get
      ⟨i, hi'⟩) = m.concept_subgraph.nodes.get ⟨i, hi⟩ := by
    simp only [List.get_eq_getElem]
    exact List.getElem_append_left hi
  have := writeList_get
    (m.concept_subgraph.nodes ++ m.visual_subgraph.nodes) ps σ i hi' hp
    haddr
  rw [hget] at this
  simpa [update_node_positions, hmerged] using this

/-- **C7, amended, witness.** The shared-node write-back instantiated at the
concrete two-node multimodal graph. -/
theorem merge_for_propagation_shares_nodes_witness :
    (update_node_positions (merge_for_propagation mmC7)
        [[0, 1, 0], [0, 0, 1]] σC7)
        ((mmC7.concept_subgraph.nodes.get ⟨0, by decide⟩).2) =
      { σC7 ((mmC7.concept_subgraph.nodes.get ⟨0, by decide⟩).2) with
        position := [[0, 1, 0], [0, 0, 1]].get ⟨0, by decide⟩ } :=
  merge_for_propagation_shares_nodes mmC7 [[0, 1, 0], [0, 0, 1]] σC7
    (by decide) (by decide) 0 (by decide) (by decide)

end Shared

/-!
## The propagation kernel (`orbital_propagation_kernel` and helpers)

Positions are an `N × D` matrix, one row per node, modelled as
`Fin N → Fin D → ℝ`. Failures of the Python code are explicit:
`torch.cross(..., dim=-1)` raises unless the last dimension has size 3,
the bare `next(...)` lookups in `_compute_system_energy` raise
`StopIteration` for a dangling edge, and indexing `embeddings[idx]` out of
range raises an `IndexError`.
-/

/-- Errors the kernel can raise. `danglingEdge` is the qualified error the
spec calls for; the source never produces it. -/
inductive KernelError where
  | crossDim
  | stopIteration
  | indexError
  | danglingEdge
  deriving DecidableEq

variable {N D : ℕ}

/-- Row dot product; for unit rows this is the cosine similarity computed by
`embeddings @ embeddings.T`. -/
def dot (x y : Fin D → ℝ) : ℝ := ∑ i, x i * y i

/-- The 3-dimensional vector cross product, the only case `torch.cross`
accepts. -/
def cross3 (x y : Fin 3 → ℝ) : Fin 3 → ℝ :=
  ![x 1 * y 2 - x 2 * y 1, x 2 * y 0 - x 0 * y 2, x 0 * y 1 - x 1 * y 0]

/-- `torch.cross(x, y, dim=-1)` transported to width `D`. The `D ≠ 3`
branch is unreachable: `velocityRows` raises `crossDim` before this value
is used whenever a cross product would actually be evaluated with
`D ≠ 3`. -/
def torchCross (x y : Fin D → ℝ) : Fin D → ℝ :=
  if h : D = 3 then
    fun i => cross3 (fun k => x (Fin.cast h.symm k)) (fun k => y (Fin.cast h.symm k))
      (Fin.cast h i)
  else 0

/-- `similarities = embeddings @ embeddings.T`. -/
def simRow (P : Fin N → Fin D → ℝ) (i j : Fin N) : ℝ := dot (P i) (P j)

/-- `gravity = similarities @ embeddings`. -/
def gravityRow (P : Fin N → Fin D → ℝ) (i : Fin N) : Fin D → ℝ :=
  ∑ j, simRow P i j • P j

/-- The tangential-velocity loop: `velocity[i] = (Σ_{j≠i}
cross(embeddings[i], gravity[j]) * similarities[i,j]) / N`. The loop body
calls `torch.cross` exactly when `N ≥ 2`, and that call raises unless
`D = 3`. -/
def velocityRows (P : Fin N → Fin D → ℝ) :
    Except KernelError (Fin N → Fin D → ℝ) :=
  if 2 ≤ N ∧ D ≠ 3 then .error .crossDim
  else .ok fun i => (N : ℝ)⁻¹ •
    ∑ j ∈ Finset.univ.erase i, simRow P i j • torchCross (P i) (gravityRow P j)

/-- `torch.nn.functional.normalize(v, p=2, dim=-1)`:
`v / max(‖v‖₂, 1e-12)`. -/
def normalizeRow (v : Fin D → ℝ) : Fin D → ℝ :=
  (max (Real.sqrt (dot v v)) 1e-12)⁻¹ • v

/-- Steps 1–3 of one kernel cycle: gravity, velocity, position update, and
reprojection onto the unit sphere. -/
def updateAndProject (eta : ℝ) (P : Fin N → Fin D → ℝ) :
    Except KernelError (Fin N → Fin D → ℝ) := do
  let vel ← velocityRows P
  .ok fun i => normalizeRow (P i + eta • (gravityRow P i + vel i))

/-- The `N × N` similarity matrix read with plain integer indices, as
`_dynamic_rewire` reads `similarities[i, j]`. All reads are in range at
every call site (the rewire loop runs over the graph's node count, which
equals `N` whenever the kernel is called on the matrix derived from the
graph), so the out-of-range value 0 is never consulted. -/
def simsOf (P : Fin N → Fin D → ℝ) : ℕ → ℕ → ℝ := fun i j =>
  if hi : i < N then if hj : j < N then dot (P ⟨i, hi⟩) (P ⟨j, hj⟩) else 0
  else 0

/-- Placeholder node for the in-range list reads of the rewiring loop. -/
def defaultNode : Node := ⟨"", "", "", [], 0, "", []⟩

/-- `_dynamic_rewire`: drop every edge whose type is `semantic`, then for
each pair `i < j` of node indices with `similarities[i, j] > threshold`
append one `semantic` edge with that similarity as weight. -/
def dynamic_rewire (g : SemanticGraph) (sims : ℕ → ℕ → ℝ) (threshold : ℝ) :
    SemanticGraph :=
  let kept := g.edges.filter (fun e => e.edge_type != "semantic")
  let newEdges := (List.range g.nodes.length).flatMap (fun i =>
    ((List.range g.nodes.length).filter (fun j => i < j)).filterMap (fun j =>
      if threshold < sims i j then
        some ⟨(g.nodes.getD i defaultNode).id, (g.nodes.getD j defaultNode).id,
          sims i j, "semantic"⟩
      else none))
  { g with edges := kept ++ newEdges }

/-- Step 5: `node.activation *= 0.95` for every node. -/
def decay_activations (g : SemanticGraph) : SemanticGraph :=
  { g with nodes := g.nodes.map (fun n => { n with activation := n.activation * 0.95 }) }

/-- `torch.nn.functional.cosine_similarity`:
`x·y / max(‖x‖₂‖y‖₂, 1e-8)`. -/
def cosine_similarity (x y : Fin D → ℝ) : ℝ :=
  dot x y / max (Real.sqrt (dot x x) * Real.sqrt (dot y y)) 1e-8

/-- `_compute_system_energy`: `Σ_edges weight * (1 - cos_sim)` where each
endpoint index is found by a bare `next(...)` — `StopIteration` when the id
is absent — and then used to index the embedding matrix. -/
def compute_system_energy (g : SemanticGraph) (P : Fin N → Fin D → ℝ) :
    Except KernelError ℝ :=
  g.edges.foldlM (fun total e =>
    match g.nodes.findIdx? (fun n => n.id == e.source_id) with
    | none => Except.error .stopIteration
    | some si =>
      match g.nodes.findIdx? (fun n => n.id == e.target_id) with
      | none => Except.error .stopIteration
      | some ti =>
        if hsi : si < N then
          if hti : ti < N then
            Except.ok (total + e.weight *
              (1 - cosine_similarity (P ⟨si, hsi⟩) (P ⟨ti, hti⟩)))
          else Except.error .indexError
        else Except.error .indexError) 0

/-- `temperature = 1.0 / (1.0 + math.exp(cycle - 12))`. -/
def temperature (cycle : ℕ) : ℝ := 1 / (1 + Real.exp ((cycle : ℝ) - 12))

/-- `threshold = 0.6 + (0.3 * (1 - temperature))`. -/
def annealThreshold (cycle : ℕ) : ℝ := 0.6 + 0.3 * (1 - temperature cycle)

/-- `_compute_pairwise_uplift`: the mean of the off-diagonal similarities.
For `N ≤ 1` the mask is empty and `torch.mean` of an empty tensor is NaN,
modelled as `none`. -/
def compute_pairwise_uplift (P : Fin N → Fin D → ℝ) : Option ℝ :=
  if 2 ≤ N then
    some ((∑ i, ∑ j ∈ Finset.univ.erase i, dot (P i) (P j)) /
      ((N * (N - 1) : ℕ) : ℝ))
  else none

/-- The metrics dict returned by `orbital_propagation_kernel`. -/
structure KernelMetrics where
  convergence_cycle : ℕ
  final_energy : ℝ
  energy_history : List ℝ
  pairwise_uplift : Option ℝ
  clustering_coefficient : ℝ
  converged : Bool

/-- The loop-carried state of one propagation run. -/
structure LoopState (N D : ℕ) where
  emb : Fin N → Fin D → ℝ
  graph : SemanticGraph
  history : List ℝ

/-- Python `max` over a nonempty list (`[]` never occurs at call sites). -/
def listMax : List ℝ → ℝ
  | [] => 0
  | x :: xs => xs.foldl max x

/-- Python `min` over a nonempty list. -/
def listMin : List ℝ → ℝ
  | [] => 0
  | x :: xs => xs.foldl min x

/-- `energy_history[-3:]`. -/
def lastThree (l : List ℝ) : List ℝ := l.drop (l.length - 3)

/-- The `for cycle in range(cycles)` loop of `orbital_propagation_kernel`,
with the energy-plateau early `break`. The second argument is the remaining
fuel `cycles - cycle`; on normal exhaustion `convergence_cycle` keeps its
initial value `cycles`. -/
def kernelLoop (eta cth : ℝ) (cycles : ℕ) :
    ℕ → ℕ → LoopState N D → Except KernelError (ℕ × LoopState N D)
  | _, 0, st => .ok (cycles, st)
  | cycle, fuel + 1, st => do
    let threshold := annealThreshold cycle
    let emb' ← updateAndProject eta st.emb
    let g' := dynamic_rewire st.graph (simsOf emb') threshold
    let g'' := decay_activations g'
    let energy ← compute_system_energy g'' emb'
    let history' := st.history ++ [energy]
    let st' : LoopState N D := ⟨emb', g'', history'⟩
    if 5 < cycle ∧ 3 ≤ history'.length ∧
        listMax (lastThree history') - listMin (lastThree history') < cth then
      .ok (cycle, st')
    else
      kernelLoop eta cth cycles (cycle + 1) fuel st'

/-- `orbital_propagation_kernel`: run the cycle loop from cycle 0 and
assemble the metrics dict (`final_similarities` is computed by the source
but never used, so it is omitted). -/
def orbital_propagation_kernel (g : SemanticGraph) (emb : Fin N → Fin D → ℝ)
    (eta : ℝ) (cycles : ℕ) (cth : ℝ) :
    Except KernelError ((Fin N → Fin D → ℝ) × KernelMetrics) := do
  let r ← kernelLoop eta cth cycles 0 cycles ⟨emb, g, []⟩
  let st := r.2
  Except.ok (st.emb,
    { convergence_cycle := r.1,
      final_energy := st.history.getLast?.getD 0,
      energy_history := st.history,
      pairwise_uplift := compute_pairwise_uplift st.emb,
      clustering_coefficient := compute_clustering_coefficient st.graph,
      converged := decide (r.1 < cycles) })

/-- **C9.** Propagation is deterministic: the kernel performs no I/O and
draws no randomness, so it is a pure function of the graph, the initial
positions and the configuration — equal inputs give equal final positions
and equal metrics. -/
theorem kernel_deterministic (g₁ g₂ : SemanticGraph)
    (e₁ e₂ : Fin N → Fin D → ℝ) (eta₁ eta₂ cth₁ cth₂ : ℝ)
    (cy₁ cy₂ : ℕ) (hg : g₁ = g₂) (he : e₁ = e₂) (heta : eta₁ = eta₂)
    (hcy : cy₁ = cy₂) (hcth : cth₁ = cth₂) :
    orbital_propagation_kernel g₁ e₁ eta₁ cy₁ cth₁ =
      orbital_propagation_kernel g₂ e₂ eta₂ cy₂ cth₂ := by
  subst hg he heta hcy hcth
  rfl

/-- The empty position matrix (no rows). -/
def emb0 (D : ℕ) : Fin 0 → Fin D → ℝ := fun i => i.elim0

/-- **C9, witness.** Determinism instantiated at the empty graph with the
default configuration. -/
theorem kernel_deterministic_witness :
    orbital_propagation_kernel ⟨512, [], []⟩ (emb0 3) (6 / 100) 24 (1 / 1000) =
      orbital_propagation_kernel ⟨512, [], []⟩ (emb0 3) (6 / 100) 24 (1 / 1000) :=
  kernel_deterministic ⟨512, [], []⟩ ⟨512, [], []⟩ (emb0 3) (emb0 3)
    (6 / 100) (6 / 100) (1 / 1000) (1 / 1000) 24 24 rfl rfl rfl rfl rfl

/-- Concrete graph with a dangling edge: one node `a`, one structural edge
whose target `ghost` is bound to no node. -/
def gC3 : SemanticGraph := ⟨512, [mkN "a"], [⟨"a", "ghost", 1, "structural"⟩]⟩

/-- Concrete `1 × 3` position matrix. -/
def embC3 : Fin 1 → Fin 3 → ℝ := fun _ => ![1, 0, 0]

/-- **C3, counterexample.** On a graph with a dangling edge the energy
computation raises the bare `StopIteration` of `next(...)` — an unqualified
lookup error, not a qualified dangling-edge error (and it does not skip the
edge: no value is returned at all). -/
theorem dangling_edge_cex :
    compute_system_energy gC3 embC3 = Except.error KernelError.stopIteration ∧
      (Except.error KernelError.stopIteration : Except KernelError ℝ) ≠
        Except.error KernelError.danglingEdge := by
  refine ⟨rfl, fun h => ?_⟩
  exact absurd (Except.error.inj h) (by decide)

/-- A `findIdx? = some` index is within the list. -/
theorem findIdx?_lt_length {α} (l : List α) (p : α → Bool) (i : ℕ)
    (h : l.findIdx? p = some i) : i < l.length := by
  induction l generalizing i with
  | nil => simp [List.findIdx?_nil] at h
  | cons a l ih =>
    rw [List.findIdx?_cons] at h
    by_cases hp : p a = true
    · have h0 : i = 0 := by
        rw [if_pos hp] at h
        exact (Option.some.inj h).symm
      subst h0
      simp
    · simp only [Bool.not_eq_true] at hp
      simp [hp] at h
      rcases h with ⟨j, hj, rfl⟩
      simpa using Nat.succ_lt_succ (ih j hj)

/-- **C3, amended.** If any edge of the graph references a node id absent
from the node map, `_compute_system_energy` (run on a position matrix with
at least one row per node, as the kernel does) fails — but with the bare,
unqualified `StopIteration` of `next(...)`, never with a qualified
dangling-edge error; it does not silently skip the edge. -/
theorem dangling_edge_energy_stopIteration (g : SemanticGraph)
    (P : Fin N → Fin D → ℝ) (hN : g.nodes.length ≤ N)
    (h : ∃ e ∈ g.edges,
      g.nodes.findIdx? (fun n => n.id == e.source_id) = none ∨
        g.nodes.findIdx? (fun n => n.id == e.target_id) = none) :
    compute_system_energy g P = Except.error KernelError.stopIteration := by
  unfold compute_system_energy
  obtain ⟨e₀, he₀, hbad⟩ := h
  -- Fold over an arbitrary accumulator and edge list containing a bad edge.
  suffices hgen : ∀ (l : List Edge) (acc : ℝ),
      (∃ e ∈ l,
        g.nodes.findIdx? (fun n => n.id == e.source_id) = none ∨
          g.nodes.findIdx? (fun n => n.id == e.target_id) = none) →
      l.foldlM (fun total e =>
        match g.nodes.findIdx? (fun n => n.id == e.source_id) with
        | none => Except.error KernelError.stopIteration
        | some si =>
          match g.nodes.findIdx? (fun n => n.id == e.target_id) with
          | none => Except.error KernelError.stopIteration
          | some ti =>
            if hsi : si < N then
              if hti : ti < N then
                Except.ok (total + e.weight *
                  (1 - cosine_similarity (P ⟨si, hsi⟩) (P ⟨ti, hti⟩)))
              else Except.error KernelError.indexError
            else Except.error KernelError.indexError) acc =
        Except.error KernelError.stopIteration by
    exact hgen g.edges 0 ⟨e₀, he₀, hbad⟩
  intro l
  induction l with
  | nil => intro acc h; simp at h
  | cons e l ih =>
    intro acc h
    rw [List.foldlM_cons]
    cases hs : g.nodes.findIdx? (fun n => n.id == e.source_id) with
    | none => rfl
    | some si =>
      cases ht : g.nodes.findIdx? (fun n => n.id == e.target_id) with
      | none => rfl
      | some ti =>
        have hsiN : si < N := le_trans (findIdx?_lt_length _ _ _ hs) hN
        have htiN : ti < N := le_trans (findIdx?_lt_length _ _ _ ht) hN
        have hbadl : ∃ e ∈ l,
            g.nodes.findIdx? (fun n => n.id == e.source_id) = none ∨
              g.nodes.findIdx? (fun n => n.id == e.target_id) = none := by
          rcases h with ⟨e', he', hb⟩
          rcases List.mem_cons.1 he' with rfl | hmem
          · rcases hb with hb | hb
            · rw [hs] at hb; exact absurd hb (by simp)
            · rw [ht] at hb; exact absurd hb (by simp)
          · exact ⟨e', hmem, hb⟩
        simp only [hsiN, htiN, dif_pos]
        exact ih _ hbadl

/-- **C3, amended, witness.** The general dangling-edge behaviour
instantiated at the concrete one-node graph. -/
theorem dangling_edge_energy_stopIteration_witness :
    compute_system_energy gC3 embC3 = Except.error KernelError.stopIteration :=
  dangling_edge_energy_stopIteration gC3 embC3 (by decide)
    ⟨⟨"a", "ghost", 1, "structural"⟩, by simp [gC3],
      Or.inr (by decide)⟩

/-- Concrete graph with 0 nodes but one (dangling) resonance edge. -/
def gC5 : SemanticGraph := ⟨512, [], [⟨"x", "y", 1, "resonance"⟩]⟩

/-- **C5, counterexample.** Invoked on a graph with 0 nodes (and a 0×D
position matrix) that still carries a non-semantic edge, the kernel does
*not* return without error: the first cycle's energy computation raises
`StopIteration` on the dangling edge. -/
theorem empty_graph_kernel_cex :
    orbital_propagation_kernel gC5 (emb0 3) (6 / 100) 24 (1 / 1000) =
      Except.error KernelError.stopIteration := rfl

/-- All-zero lists have zero last element (with default 0). -/
theorem getLastD_zero (l : List ℝ) (h : ∀ x ∈ l, x = 0) :
    l.getLast?.getD 0 = 0 := by
  cases hl : l.getLast? with
  | none => rfl
  | some a =>
    have hmem : a ∈ l.getLast? := by simp [hl]
    obtain ⟨hne, rfl⟩ := List.mem_getLast?_eq_getLast hmem
    simp [h _ (List.getLast_mem hne)]

/-- With no rows, the velocity loop body never runs, so the update step
always succeeds. -/
theorem updateAndProject_zero_ok {D : ℕ} (eta : ℝ)
    (emb : Fin 0 → Fin D → ℝ) :
    ∃ f, updateAndProject eta emb = Except.ok f := by
  rw [updateAndProject, velocityRows,
    if_neg (by rintro ⟨h2le, -⟩; exact absurd h2le (by norm_num))]
  exact ⟨_, rfl⟩

/-- Graphs without nodes have clustering coefficient 0. -/
theorem clustering_nil (g : SemanticGraph) (h : g.nodes = []) :
    compute_clustering_coefficient g = 0 := by
  simp [compute_clustering_coefficient, h]

/-- Looping on an empty graph with an all-zero energy history succeeds and
keeps the history all-zero. -/
theorem kernelLoop_empty (eta cth : ℝ) (cycles D : ℕ) :
    ∀ (fuel cycle : ℕ) (st : LoopState 0 D),
      st.graph.nodes = [] → st.graph.edges = [] →
      (∀ x ∈ st.history, x = (0 : ℝ)) →
      ∃ cc st', kernelLoop eta cth cycles cycle fuel st = .ok (cc, st') ∧
        st'.graph.nodes = [] ∧ ∀ x ∈ st'.history, x = (0 : ℝ) := by
  intro fuel
  induction fuel with
  | zero => exact fun cycle st h1 _ h3 => ⟨cycles, st, rfl, h1, h3⟩
  | succ fuel ih =>
    intro cycle st h1 h2 h3
    obtain ⟨emb', hup⟩ := updateAndProject_zero_ok eta st.emb
    have hg' : dynamic_rewire st.graph (simsOf emb') (annealThreshold cycle) =
        (⟨st.graph.dim, [], []⟩ : SemanticGraph) := by
      rw [dynamic_rewire, h2, h1]
      rfl
    have hgn : (decay_activations (⟨st.graph.dim, [], []⟩ : SemanticGraph)).nodes = [] := rfl
    have hge : (decay_activations (⟨st.graph.dim, [], []⟩ : SemanticGraph)).edges = [] := rfl
    have henergy : compute_system_energy
        (decay_activations (⟨st.graph.dim, [], []⟩ : SemanticGraph)) emb' =
        Except.ok (0 : ℝ) := rfl
    rw [kernelLoop, hup]
    dsimp only [Bind.bind, Except.bind]
    rw [hg', henergy]
    dsimp only [Bind.bind, Except.bind]
    by_cases hbr : 5 < cycle ∧ 3 ≤ (st.history ++ [(0 : ℝ)]).length ∧
        listMax (lastThree (st.history ++ [(0 : ℝ)])) -
          listMin (lastThree (st.history ++ [(0 : ℝ)])) < cth
    · rw [if_pos hbr]
      refine ⟨cycle, _, rfl, hgn, ?_⟩
      intro x hx
      rcases List.mem_append.1 hx with hx | hx
      · exact h3 x hx
      · simpa using hx
    · rw [if_neg hbr]
      refine ih (cycle + 1)
        ⟨emb', decay_activations (⟨st.graph.dim, [], []⟩ : SemanticGraph),
          st.history ++ [0]⟩ hgn hge ?_
      intro x hx
      rcases List.mem_append.1 hx with hx | hx
      · exact h3 x hx
      · simpa using hx

/-- **C5, amended.** On a graph with 0 nodes whose edges (if any) are all
`semantic` — so none survives the first rewiring — the kernel returns
without error a 0×D position matrix together with `final_energy = 0` and
`clustering_coefficient = 0`. -/
theorem empty_graph_kernel_amended (g : SemanticGraph) {D : ℕ}
    (emb : Fin 0 → Fin D → ℝ) (eta cth : ℝ) (cycles : ℕ)
    (hnodes : g.nodes = [])
    (hsem : ∀ e ∈ g.edges, e.edge_type = "semantic") :
    ∃ Q m, orbital_propagation_kernel g emb eta cycles cth =
        Except.ok (Q, m) ∧
      m.final_energy = 0 ∧ m.clustering_coefficient = 0 := by
  cases cycles with
  | zero =>
    refine ⟨emb, _, rfl, ?_, ?_⟩
    · rfl
    · exact clustering_nil g hnodes
  | succ fuel =>
    obtain ⟨emb', hup⟩ := updateAndProject_zero_ok eta emb
    have hkept : g.edges.filter (fun e => e.edge_type != "semantic") = [] := by
      rw [List.filter_eq_nil_iff]
      intro e he
      simp [hsem e he]
    have hg' : dynamic_rewire g (simsOf emb') (annealThreshold 0) =
        (⟨g.dim, [], []⟩ : SemanticGraph) := by
      rw [dynamic_rewire, hkept, hnodes]
      rfl
    have hgn : (decay_activations (⟨g.dim, [], []⟩ : SemanticGraph)).nodes = [] := rfl
    have hge : (decay_activations (⟨g.dim, [], []⟩ : SemanticGraph)).edges = [] := rfl
    have henergy : compute_system_energy
        (decay_activations (⟨g.dim, [], []⟩ : SemanticGraph)) emb' =
        Except.ok (0 : ℝ) := rfl
    rw [orbital_propagation_kernel, kernelLoop, hup]
    dsimp only [Bind.bind, Except.bind]
    rw [hg', henergy]
    dsimp only [Bind.bind, Except.bind]
    rw [if_neg (by rintro ⟨h5, -⟩; exact absurd h5 (by norm_num))]
    obtain ⟨cc, st', hok, hn', hh'⟩ :=
      kernelLoop_empty eta cth (fuel + 1) D fuel 1
        ⟨emb', decay_activations (⟨g.dim, [], []⟩ : SemanticGraph), [(0 : ℝ)]⟩
        hgn hge (by intro x hx; simpa using hx)
    rw [show ([] : List ℝ) ++ [(0 : ℝ)] = [(0 : ℝ)] from rfl]
    rw [hok]
    dsimp only [Bind.bind, Except.bind]
    refine ⟨st'.emb, _, rfl, ?_, ?_⟩
    · exact getLastD_zero st'.history hh'
    · exact clustering_nil st'.graph hn'

/-- **C5, amended, witness.** The empty graph with no edges at all, at the
default configuration. -/
theorem empty_graph_kernel_amended_witness :
    ∃ Q m, orbital_propagation_kernel (⟨512, [], []⟩ : SemanticGraph)
        (emb0 3) (6 / 100) 24 (1 / 1000) = Except.ok (Q, m) ∧
      m.final_energy = 0 ∧ m.clustering_coefficient = 0 :=
  empty_graph_kernel_amended ⟨512, [], []⟩ (emb0 3) (6 / 100) (1 / 1000) 24
    rfl (by intro e he; simp at he)

/-- Filtering distributes over `flatMap`. -/
theorem filter_flatMap {α β : Type} (l : List α) (f : α → List β)
    (p : β → Bool) :
    (l.flatMap f).filter p = l.flatMap (fun a => (f a).filter p) := by
  induction l with
  | nil => rfl
  | cons a l ih => simp [List.flatMap_cons, List.filter_append, ih]

/-- A `flatMap` whose pieces are all empty except at one list element. -/
theorem flatMap_eq_single {α β : Type} (L : List α) (g : α → List β) (i : α)
    (hi : i ∈ L) (hnd : L.Nodup) (h : ∀ a ∈ L, a ≠ i → g a = []) :
    L.flatMap g = g i := by
  induction L with
  | nil => cases hi
  | cons a L ih =>
    rcases List.mem_cons.1 hi with rfl | hi'
    · have hrest : L.flatMap g = [] := by
        rw [List.flatMap_eq_nil_iff]
        intro b hb
        exact h b (List.mem_cons_of_mem _ hb)
          (fun hbe => (List.nodup_cons.1 hnd).1 (hbe ▸ hb))
      simp [List.flatMap_cons, hrest]
    · have ha : a ≠ i := fun hae => (List.nodup_cons.1 hnd).1 (hae ▸ hi')
      rw [List.flatMap_cons, h a (by simp) ha,
        ih hi' (List.nodup_cons.1 hnd).2
          (fun b hb hbne => h b (List.mem_cons_of_mem _ hb) hbne)]
      rfl

/-- A `filterMap` whose entries are all `none` except at one list element. -/
theorem filterMap_eq_single {α β : Type} (L : List α) (k : α → Option β)
    (j : α) (hj : j ∈ L) (hnd : L.Nodup)
    (h : ∀ a ∈ L, a ≠ j → k a = none) :
    L.filterMap k = (k j).toList := by
  induction L with
  | nil => cases hj
  | cons a L ih =>
    rcases List.mem_cons.1 hj with rfl | hj'
    · have hrest : L.filterMap k = [] := by
        rw [List.filterMap_eq_nil_iff]
        intro b hb
        exact h b (List.mem_cons_of_mem _ hb)
          (fun hbe => (List.nodup_cons.1 hnd).1 (hbe ▸ hb))
      cases hk : k j with
      | none => simp [List.filterMap_cons, hk, hrest]
      | some b => simp [List.filterMap_cons, hk, hrest]
    · have ha : a ≠ j := fun hae => (List.nodup_cons.1 hnd).1 (hae ▸ hj')
      rw [List.filterMap_cons, h a (by simp) ha,
        ih hj' (List.nodup_cons.1 hnd).2
          (fun b hb hbne => h b (List.mem_cons_of_mem _ hb) hbne)]

/-- Filtering distributes over `filterMap`. -/
theorem filter_filterMap {α β : Type} (L : List α) (k : α → Option β)
    (p : β → Bool) :
    (L.filterMap k).filter p = L.filterMap (fun a => (k a).filter p) := by
  induction L with
  | nil => rfl
  | cons a L ih =>
    cases hk : k a with
    | none => simp [List.filterMap_cons, hk, ih]
    | some b =>
      by_cases hp : p b = true
      · simp [List.filterMap_cons, hk, List.filter_cons, hp, ih,
          Option.filter]
      · simp [List.filterMap_cons, hk, List.filter_cons, hp, ih,
          Option.filter]

/-- Distinct positions in a graph with pairwise-distinct node ids carry
distinct ids. -/
theorem node_id_inj (nodes : List Node) (hids : (nodes.map Node.id).Nodup)
    (i j : ℕ) (hi : i < nodes.length) (hj : j < nodes.length)
    (h : (nodes.get ⟨i, hi⟩).id = (nodes.get ⟨j, hj⟩).id) : i = j := by
  have hi' : i < (nodes.map Node.id).length := by simpa using hi
  have hj' : j < (nodes.map Node.id).length := by simpa using hj
  have hmi : (nodes.map Node.id).get ⟨i, hi'⟩ = (nodes.get ⟨i, hi⟩).id := by
    simp
  have hmj : (nodes.map Node.id).get ⟨j, hj'⟩ = (nodes.get ⟨j, hj⟩).id := by
    simp
  have hfin : (⟨i, hi'⟩ : Fin (nodes.map Node.id).length) = ⟨j, hj'⟩ := by
    apply (List.Nodup.get_inj_iff hids).1
    rw [hmi, hmj]
    exact h
  exact congrArg Fin.val hfin

/-- `e` connects the unordered id pair `{a, b}` (in either orientation). -/
def connectsPair (e : Edge) (a b : String) : Bool :=
  (e.source_id == a && e.target_id == b) ||
    (e.source_id == b && e.target_id == a)

/-- In-range `getD` is `get`. -/
theorem nodes_getD_eq_get (nodes : List Node) (i : ℕ) (h : i < nodes.length) :
    nodes.getD i defaultNode = nodes.get ⟨i, h⟩ := by
  simp [List.getD_eq_getElem?_getD, List.getElem?_eq_getElem h]

/-- **C2.** After the rewiring step of cycle `c` on the post-update
positions `P` (unit rows, so the similarity matrix entries are the cosine
similarities — conjunct 4): for every index pair `i < j` the semantic edges
connecting that node pair are exactly one edge of weight `similarities[i,j]`
when `similarities[i,j] > threshold(c)` and none otherwise (conjunct 1, in
particular a pair exactly at the threshold gets no edge); every semantic
edge comes from such a qualifying pair (conjunct 2); and every non-semantic
(structural or resonance) edge present before is still present (conjunct
3). -/
theorem dynamic_rewire_semantics (g : SemanticGraph)
    (P : Fin N → Fin D → ℝ) (hN : g.nodes.length = N)
    (hids : (g.nodes.map Node.id).Nodup)
    (hunit : ∀ i, dot (P i) (P i) = 1) (c : ℕ) :
    (∀ (i j : ℕ) (hi : i < g.nodes.length) (hj : j < g.nodes.length),
      i < j →
      (dynamic_rewire g (simsOf P) (annealThreshold c)).edges.filter
          (fun e => e.edge_type == "semantic" &&
            connectsPair e (g.nodes.get ⟨i, hi⟩).id (g.nodes.get ⟨j, hj⟩).id) =
        if annealThreshold c < simsOf P i j then
          [⟨(g.nodes.get ⟨i, hi⟩).id, (g.nodes.get ⟨j, hj⟩).id,
            simsOf P i j, "semantic"⟩]
        else []) ∧
    (∀ e ∈ (dynamic_rewire g (simsOf P) (annealThreshold c)).edges,
      e.edge_type = "semantic" →
      ∃ (i j : ℕ) (hi : i < g.nodes.length) (hj : j < g.nodes.length),
        i < j ∧ annealThreshold c < simsOf P i j ∧
        e = ⟨(g.nodes.get ⟨i, hi⟩).id, (g.nodes.get ⟨j, hj⟩).id,
          simsOf P i j, "semantic"⟩) ∧
    (∀ e ∈ g.edges, e.edge_type ≠ "semantic" →
      e ∈ (dynamic_rewire g (simsOf P) (annealThreshold c)).edges) ∧
    (∀ (i j : Fin N), simsOf P i.1 j.1 = cosine_similarity (P i) (P j)) := by
  have hedges : (dynamic_rewire g (simsOf P) (annealThreshold c)).edges =
      g.edges.filter (fun e => e.edge_type != "semantic") ++
        (List.range g.nodes.length).flatMap (fun i =>
          ((List.range g.nodes.length).filter (fun j => i < j)).filterMap
            (fun j =>
              if annealThreshold c < simsOf P i j then
                some ⟨(g.nodes.getD i defaultNode).id,
                  (g.nodes.getD j defaultNode).id, simsOf P i j, "semantic"⟩
              else none)) := rfl
  refine ⟨?_, ?_, ?_, ?_⟩
  · -- (1) exactly one semantic edge per qualifying pair, none otherwise
    intro i j hi hj hij
    rw [hedges, List.filter_append]
    have hkept : (g.edges.filter (fun e => e.edge_type != "semantic")).filter
        (fun e => e.edge_type == "semantic" &&
          connectsPair e (g.nodes.get ⟨i, hi⟩).id (g.nodes.get ⟨j, hj⟩).id) =
        [] := by
      rw [List.filter_eq_nil_iff]
      intro e he
      have hbne := (List.mem_filter.1 he).2
      rw [bne_iff_ne] at hbne
      intro hp
      simp only [Bool.and_eq_true, beq_iff_eq] at hp
      exact hbne hp.1
    rw [hkept, List.nil_append, filter_flatMap]
    rw [flatMap_eq_single _ _ i (by simp [hi]) (List.nodup_range _) ?hz]
    case hz =>
      intro i' hi'm hne
      have hi' : i' < g.nodes.length := by simpa using hi'm
      rw [filter_filterMap, List.filterMap_eq_nil_iff]
      intro j' hj'f
      have hj' : j' < g.nodes.length := by
        have := (List.mem_filter.1 hj'f).1
        simpa using this
      have hij' : i' < j' := by
        have := (List.mem_filter.1 hj'f).2
        simpa using this
      rw [nodes_getD_eq_get g.nodes i' hi', nodes_getD_eq_get g.nodes j' hj']
      by_cases hth : annealThreshold c < simsOf P i' j'
      · rw [if_pos hth]
        have hne1 : (g.nodes.get ⟨i', hi'⟩).id ≠ (g.nodes.get ⟨i, hi⟩).id :=
          fun h => hne (node_id_inj g.nodes hids i' i hi' hi h)
        by_cases hc2 : (g.nodes.get ⟨i', hi'⟩).id = (g.nodes.get ⟨j, hj⟩).id
        · have hij2 := node_id_inj g.nodes hids i' j hi' hj hc2
          have hne3 : (g.nodes.get ⟨j', hj'⟩).id ≠ (g.nodes.get ⟨i, hi⟩).id :=
            fun h => by
              have := node_id_inj g.nodes hids j' i hj' hi h
              omega
          simp only [Option.filter, connectsPair]
          simp
          exact ⟨fun h => absurd h hne1, fun _ => hne3⟩
        · simp only [Option.filter, connectsPair]
          simp
          exact ⟨fun h => absurd h hne1, fun h => absurd h hc2⟩
      · rw [if_neg hth]
        rfl
    · -- the i-th piece of the flatMap
      rw [filter_filterMap]
      rw [filterMap_eq_single _ _ j (by simp [hj, hij])
        (List.Nodup.filter _ (List.nodup_range _)) ?hz2]
      case hz2 =>
        intro j' hj'f hne
        have hj' : j' < g.nodes.length := by
          have := (List.mem_filter.1 hj'f).1
          simpa using this
        have hij' : i < j' := by
          have := (List.mem_filter.1 hj'f).2
          simpa using this
        rw [nodes_getD_eq_get g.nodes i hi, nodes_getD_eq_get g.nodes j' hj']
        by_cases hth : annealThreshold c < simsOf P i j'
        · rw [if_pos hth]
          have hne1 : (g.nodes.get ⟨j', hj'⟩).id ≠ (g.nodes.get ⟨j, hj⟩).id :=
            fun h => hne (node_id_inj g.nodes hids j' j hj' hj h)
          have hne2 : (g.nodes.get ⟨i, hi⟩).id ≠ (g.nodes.get ⟨j, hj⟩).id :=
            fun h => by
              have := node_id_inj g.nodes hids i j hi hj h
              omega
          simp only [Option.filter, connectsPair]
          simp
          exact ⟨hne1, fun h => absurd h hne2⟩
        · rw [if_neg hth]
          rfl
      · rw [nodes_getD_eq_get g.nodes i hi, nodes_getD_eq_get g.nodes j hj]
        by_cases hth : annealThreshold c < simsOf P i j
        · rw [if_pos hth, if_pos hth]
          simp [Option.filter, connectsPair]
        · rw [if_neg hth, if_neg hth]
          rfl
  · -- (2) every semantic edge comes from a qualifying pair
    intro e he hsem
    rw [hedges] at he
    rcases List.mem_append.1 he with he | he
    · have hbne := (List.mem_filter.1 he).2
      rw [bne_iff_ne] at hbne
      exact absurd hsem hbne
    · rcases List.mem_flatMap.1 he with ⟨i', hi'm, hmemf⟩
      rcases List.mem_filterMap.1 hmemf with ⟨j', hj'f, hkj⟩
      have hi' : i' < g.nodes.length := by simpa using hi'm
      have hj' : j' < g.nodes.length := by
        have := (List.mem_filter.1 hj'f).1
        simpa using this
      have hij' : i' < j' := by
        have := (List.mem_filter.1 hj'f).2
        simpa using this
      by_cases hth : annealThreshold c < simsOf P i' j'
      · rw [if_pos hth] at hkj
        refine ⟨i', j', hi', hj', hij', hth, ?_⟩
        rw [← Option.some.inj hkj,
          nodes_getD_eq_get g.nodes i' hi', nodes_getD_eq_get g.nodes j' hj']
      · rw [if_neg hth] at hkj
        exact absurd hkj (by simp)
  · -- (3) non-semantic edges survive
    intro e he hns
    rw [hedges]
    refine List.mem_append.2 (Or.inl ?_)
    rw [List.mem_filter]
    exact ⟨he, by simpa [bne_iff_ne] using hns⟩
  · -- (4) with unit rows the similarity entries are cosine similarities
    intro i j
    have hsim : simsOf P i.1 j.1 = dot (P i) (P j) := by
      rw [simsOf]
      rw [dif_pos i.isLt, dif_pos j.isLt]
    rw [hsim, cosine_similarity, hunit i, hunit j, Real.sqrt_one]
    norm_num

/-- Concrete two-node graph for the rewiring witness. -/
def gC2 : SemanticGraph := ⟨512, [mkN "a", mkN "b"], []⟩

/-- Concrete orthonormal `2 × 3` position matrix. -/
def PC2 : Fin 2 → Fin 3 → ℝ := ![![1, 0, 0], ![0, 1, 0]]

/-- The concrete rows are unit vectors. -/
theorem PC2_unit : ∀ i : Fin 2, dot (PC2 i) (PC2 i) = 1 := by
  intro i
  fin_cases i <;> norm_num [PC2, dot, Fin.sum_univ_three]

/-- **C2, witness.** The per-pair rewiring characterisation instantiated at
the concrete two-node graph, cycle 0, pair (0, 1). -/
theorem dynamic_rewire_semantics_witness :
    (dynamic_rewire gC2 (simsOf PC2) (annealThreshold 0)).edges.filter
        (fun e => e.edge_type == "semantic" &&
          connectsPair e (gC2.nodes.get ⟨0, by decide⟩).id
            (gC2.nodes.get ⟨1, by decide⟩).id) =
      if annealThreshold 0 < simsOf PC2 0 1 then
        [⟨(gC2.nodes.get ⟨0, by decide⟩).id, (gC2.nodes.get ⟨1, by decide⟩).id,
          simsOf PC2 0 1, "semantic"⟩]
      else [] :=
  (dynamic_rewire_semantics gC2 PC2 rfl (by decide) PC2_unit 0).1 0 1
    (by decide) (by decide) (by decide)

/-- Bilinearity of the row dot product: additivity on the right. -/
theorem dot_add_right (x y z : Fin D → ℝ) :
    dot x (y + z) = dot x y + dot x z := by
  simp [dot, mul_add, Finset.sum_add_distrib]

/-- Bilinearity: scalar multiples on the right. -/
theorem dot_smul_right (c : ℝ) (x y : Fin D → ℝ) :
    dot x (c • y) = c * dot x y := by
  simp only [dot, Pi.smul_apply, smul_eq_mul, Finset.mul_sum]
  exact Finset.sum_congr rfl (fun i _ => by ring)

/-- Scalar multiples on the left. -/
theorem dot_smul_left (c : ℝ) (x y : Fin D → ℝ) :
    dot (c • x) y = c * dot x y := by
  simp only [dot, Pi.smul_apply, smul_eq_mul, Finset.mul_sum]
  exact Finset.sum_congr rfl (fun i _ => by ring)

/-- The dot product commutes with finite sums on the right. -/
theorem dot_sum_right {ι : Type} (x : Fin D → ℝ) (s : Finset ι)
    (f : ι → Fin D → ℝ) :
    dot x (∑ j ∈ s, f j) = ∑ j ∈ s, dot x (f j) := by
  simp only [dot, Finset.sum_apply, Finset.mul_sum]
  exact Finset.sum_comm

/-- `torch.cross` at width 3 is the 3-dimensional cross product. -/
theorem torchCross_spec (x y : Fin 3 → ℝ) : torchCross x y = cross3 x y := rfl

/-- The cross product is orthogonal to its first factor. -/
theorem dot_cross3_self (x y : Fin 3 → ℝ) : dot x (cross3 x y) = 0 := by
  simp only [dot, cross3, Fin.sum_univ_three]
  simp only [Matrix.cons_val_zero, Matrix.cons_val_one, Matrix.head_cons,
    Matrix.cons_val_two, Matrix.tail_cons]
  ring

/-- The velocity row of the kernel is orthogonal to the node's own position
whenever the velocity step does not raise (`N ≤ 1`, where the sum is empty,
or `D = 3`, where the genuine cross product is used). -/
theorem dot_velocity_zero (P : Fin N → Fin D → ℝ) (h : ¬(2 ≤ N ∧ D ≠ 3))
    (i : Fin N) :
    dot (P i) ((N : ℝ)⁻¹ • ∑ j ∈ Finset.univ.erase i,
      simRow P i j • torchCross (P i) (gravityRow P j)) = 0 := by
  rw [dot_smul_right, dot_sum_right]
  have hz : ∀ j ∈ Finset.univ.erase i,
      dot (P i) (simRow P i j • torchCross (P i) (gravityRow P j)) = 0 := by
    intro j hj
    rw [dot_smul_right]
    rcases not_and_or.1 h with hN2 | hD3
    · exfalso
      have hji : j ≠ i := Finset.ne_of_mem_erase hj
      have h1 := i.2
      have h2 := j.2
      have hne : j.1 ≠ i.1 := fun h' => hji (Fin.ext h')
      push_neg at hN2
      omega
    · have hD : D = 3 := not_not.1 hD3
      subst hD
      rw [torchCross_spec, dot_cross3_self, mul_zero]
  rw [Finset.sum_congr rfl hz, Finset.sum_const_zero, mul_zero]

/-- `⟨x_i, G_i⟩ = Σ_j s_{ij}²`: the gravity pull along the position. -/
theorem dot_gravity_self (P : Fin N → Fin D → ℝ) (i : Fin N) :
    dot (P i) (gravityRow P i) = ∑ j, (simRow P i j) ^ 2 := by
  rw [gravityRow, dot_sum_right]
  refine Finset.sum_congr rfl (fun j _ => ?_)
  rw [dot_smul_right]
  rw [show dot (P i) (P j) = simRow P i j from rfl]
  ring

/-- Discrete Cauchy–Schwarz for row dot products. -/
theorem dot_sq_le (x u : Fin D → ℝ) : (dot x u) ^ 2 ≤ dot x x * dot u u := by
  have h := Finset.sum_mul_sq_le_sq_mul_sq Finset.univ x u
  calc (dot x u) ^ 2 = (∑ i, x i * u i) ^ 2 := rfl
    _ ≤ (∑ i, x i ^ 2) * (∑ i, u i ^ 2) := h
    _ = dot x x * dot u u := by
        rw [show dot x x = ∑ i, x i * x i from rfl,
          show dot u u = ∑ i, u i * u i from rfl]
        congr 1 <;> exact Finset.sum_congr rfl (fun i _ => pow_two _)

/-- Rows of norm at least one are projected exactly onto the unit sphere by
`normalize` (the `1e-12` clamp is inactive). -/
theorem normalizeRow_unit (v : Fin D → ℝ) (h : 1 ≤ dot v v) :
    dot (normalizeRow v) (normalizeRow v) = 1 := by
  have h0 : (0 : ℝ) ≤ dot v v := le_trans zero_le_one h
  have hsq : (1 : ℝ) ≤ Real.sqrt (dot v v) := by
    rw [show (1 : ℝ) = Real.sqrt 1 from Real.sqrt_one.symm]
    exact Real.sqrt_le_sqrt h
  have hmax : max (Real.sqrt (dot v v)) 1e-12 = Real.sqrt (dot v v) :=
    max_eq_left (by norm_num; linarith)
  have hne : Real.sqrt (dot v v) ≠ 0 := by linarith
  rw [normalizeRow, hmax, dot_smul_right, dot_smul_left]
  field_simp

/-- One position-update-and-reprojection step sends exactly-unit rows to
exactly-unit rows (for non-negative `eta`): the updated row keeps dot
product ≥ 1 with the old position (gravity pulls along it, velocity is
tangential), so by Cauchy–Schwarz it has norm ≥ 1 and reprojection is
exact. -/
theorem updateAndProject_unit (eta : ℝ) (P : Fin N → Fin D → ℝ)
    (hunit : ∀ i, dot (P i) (P i) = 1) (heta : 0 ≤ eta)
    (P' : Fin N → Fin D → ℝ) (hok : updateAndProject eta P = Except.ok P') :
    ∀ i, dot (P' i) (P' i) = 1 := by
  rw [updateAndProject] at hok
  by_cases hcond : 2 ≤ N ∧ D ≠ 3
  · rw [velocityRows, if_pos hcond] at hok
    dsimp only [Bind.bind, Except.bind] at hok
    exact Except.noConfusion hok
  · rw [velocityRows, if_neg hcond] at hok
    have hP' : P' = fun i => normalizeRow (P i + eta • (gravityRow P i +
        (N : ℝ)⁻¹ • ∑ j ∈ Finset.univ.erase i,
          simRow P i j • torchCross (P i) (gravityRow P j))) :=
      (Except.ok.inj hok).symm
    intro i
    rw [hP']
    have hvel := dot_velocity_zero P hcond i
    have hd : 1 ≤ dot (P i) (P i + eta • (gravityRow P i +
        (N : ℝ)⁻¹ • ∑ j ∈ Finset.univ.erase i,
          simRow P i j • torchCross (P i) (gravityRow P j))) := by
      rw [dot_add_right, dot_smul_right, dot_add_right, hvel, hunit i,
        dot_gravity_self]
      have hsum : (0 : ℝ) ≤ ∑ j, (simRow P i j) ^ 2 :=
        Finset.sum_nonneg (fun j _ => sq_nonneg _)
      nlinarith
    have hu : 1 ≤ dot (P i + eta • (gravityRow P i +
        (N : ℝ)⁻¹ • ∑ j ∈ Finset.univ.erase i,
          simRow P i j • torchCross (P i) (gravityRow P j)))
        (P i + eta • (gravityRow P i +
        (N : ℝ)⁻¹ • ∑ j ∈ Finset.univ.erase i,
          simRow P i j • torchCross (P i) (gravityRow P j))) := by
      have hcs := dot_sq_le (P i) (P i + eta • (gravityRow P i +
        (N : ℝ)⁻¹ • ∑ j ∈ Finset.univ.erase i,
          simRow P i j • torchCross (P i) (gravityRow P j)))
      rw [hunit i, one_mul] at hcs
      nlinarith
    exact normalizeRow_unit _ hu

/-- The loop preserves exactly-unit rows through every cycle. -/
theorem kernelLoop_unit (eta cth : ℝ) (cycles : ℕ) (heta : 0 ≤ eta) :
    ∀ (fuel cycle : ℕ) (st : LoopState N D),
      (∀ i, dot (st.emb i) (st.emb i) = 1) →
      ∀ cc st', kernelLoop eta cth cycles cycle fuel st = .ok (cc, st') →
      ∀ i, dot (st'.emb i) (st'.emb i) = 1 := by
  intro fuel
  induction fuel with
  | zero =>
    intro cycle st hst cc st' hok
    have h := Except.ok.inj hok
    have hst' : st' = st := (congrArg Prod.snd h).symm
    rw [hst']
    exact hst
  | succ fuel ih =>
    intro cycle st hst cc st' hok
    rw [kernelLoop] at hok
    cases hup : updateAndProject eta st.emb with
    | error err =>
      rw [hup] at hok
      exact absurd hok (by simp [Bind.bind, Except.bind])
    | ok emb' =>
      rw [hup] at hok
      dsimp only [Bind.bind, Except.bind] at hok
      have hemb' : ∀ i, dot (emb' i) (emb' i) = 1 :=
        updateAndProject_unit eta st.emb hst heta emb' hup
      cases hen : compute_system_energy
          (decay_activations (dynamic_rewire st.graph (simsOf emb')
            (annealThreshold cycle))) emb' with
      | error err =>
        rw [hen] at hok
        exact absurd hok (by simp)
      | ok en =>
        rw [hen] at hok
        dsimp only at hok
        by_cases hbr : 5 < cycle ∧ 3 ≤ (st.history ++ [en]).length ∧
            listMax (lastThree (st.history ++ [en])) -
              listMin (lastThree (st.history ++ [en])) < cth
        · rw [if_pos hbr] at hok
          have h := Except.ok.inj hok
          have hst' : st' = ⟨emb', decay_activations (dynamic_rewire st.graph
              (simsOf emb') (annealThreshold cycle)), st.history ++ [en]⟩ :=
            (congrArg Prod.snd h).symm
          rw [hst']
          exact hemb'
        · rw [if_neg hbr] at hok
          exact ih (cycle + 1)
            ⟨emb', decay_activations (dynamic_rewire st.graph (simsOf emb')
              (annealThreshold cycle)), st.history ++ [en]⟩
            hemb' cc st' hok

/-- **C1.** Unit-sphere invariant: starting from a position matrix whose
rows are unit vectors, with non-negative step size `eta`, every
position-update-and-reprojection step of `orbital_propagation_kernel`
produces rows of L2 norm exactly 1 (hence within the 1e-5 tolerance), and
every row of the positions the kernel returns has L2 norm within 1e-5 of
1. -/
theorem unit_sphere_invariant (P : Fin N → Fin D → ℝ) (eta : ℝ)
    (hunit : ∀ i, dot (P i) (P i) = 1) (heta : 0 ≤ eta) :
    (∀ P', updateAndProject eta P = Except.ok P' →
      ∀ i, |Real.sqrt (dot (P' i) (P' i)) - 1| ≤ 1e-5) ∧
    ∀ (g : SemanticGraph) (cycles : ℕ) (cth : ℝ)
      (Q : Fin N → Fin D → ℝ) (m : KernelMetrics),
      orbital_propagation_kernel g P eta cycles cth = Except.ok (Q, m) →
      ∀ i, |Real.sqrt (dot (Q i) (Q i)) - 1| ≤ 1e-5 := by
  have habs : ∀ (x : Fin D → ℝ), dot x x = 1 →
      |Real.sqrt (dot x x) - 1| ≤ 1e-5 := by
    intro x hx
    rw [hx, Real.sqrt_one]
    norm_num
  constructor
  · intro P' hok i
    exact habs _ (updateAndProject_unit eta P hunit heta P' hok i)
  · intro g cycles cth Q m hok i
    rw [orbital_propagation_kernel] at hok
    cases hloop : kernelLoop eta cth cycles 0 cycles ⟨P, g, []⟩ with
    | error err =>
      rw [hloop] at hok
      exact absurd hok (by simp [Bind.bind, Except.bind])
    | ok r =>
      rw [hloop] at hok
      dsimp only [Bind.bind, Except.bind] at hok
      have h := Except.ok.inj hok
      have hQ : Q = r.2.emb := (congrArg Prod.fst h).symm
      rw [hQ]
      exact habs _
        (kernelLoop_unit eta cth cycles heta cycles 0 ⟨P, g, []⟩ hunit
          r.1 r.2 hloop i)

/-- Concrete `1 × 3` unit-row matrix for the invariant witness. -/
def PC1 : Fin 1 → Fin 3 → ℝ := fun _ => ![1, 0, 0]

/-- **C1, witness.** The invariant instantiated at a one-row unit matrix
with the default `eta = 0.06`. -/
theorem unit_sphere_invariant_witness :
    (∀ P', updateAndProject (6 / 100) PC1 = Except.ok P' →
      ∀ i, |Real.sqrt (dot (P' i) (P' i)) - 1| ≤ 1e-5) ∧
    ∀ (g : SemanticGraph) (cycles : ℕ) (cth : ℝ)
      (Q : Fin 1 → Fin 3 → ℝ) (m : KernelMetrics),
      orbital_propagation_kernel g PC1 (6 / 100) cycles cth =
        Except.ok (Q, m) →
      ∀ i, |Real.sqrt (dot (Q i) (Q i)) - 1| ≤ 1e-5 :=
  unit_sphere_invariant PC1 (6 / 100)
    (fun _ => by norm_num [PC1, dot, Fin.sum_univ_three]) (by norm_num)

end Orbital
